import Mathlib

/-!
Verification of the source-locator and backward-reference resolver of the
go-assert library (internal/assertion/parser.go), via a shallow embedding of
the relevant Go code in Lean.

Modelling conventions:
  * Source positions (go/token.Pos) are byte offsets (Nat).  A FileSet is
    modelled as a function from offsets to line numbers (`lineOf`).
  * go/ast nodes are modelled by the inductive types `Expr`, `Stmt`,
    `FuncDecl`, `File` below, restricted to the node kinds the resolver
    inspects (identifiers, selector expressions, calls, unary and binary
    expressions, basic literals, assignments, range statements, expression
    statements, blocks).  Node identity (Go pointer equality) is modelled by
    structural equality: distinct nodes of a well-formed file carry distinct
    positions, so structural equality with positions is node identity.
  * go/printer output (formatNode) is modelled by the canonical formatting
    functions `formatExpr` / `formatStmt`; concrete scenarios use source
    positions consistent with this canonical layout, as a gofmt-ed file has.
  * `ast.Inspect` traversals whose callback prunes only on the global `done`
    flag (or on the statically known exclusion set) are modelled as left
    folds over the pruned pre-order listing of the syntax tree
    (`flattenDecl`, `flattenFile`): once `done` is set the Go callback
    returns false everywhere and the state is frozen, which a fold over the
    full listing reproduces exactly.
  * The `for` loop inside `IsVar` is modelled with explicit fuel
    (`isVarLoop`): its body executes `x = sel` where `sel` is `x` itself, so
    the loop state never changes.  `IsVar` is the fuel-free function that
    returns `none` exactly when the loop runs forever; divergence is
    propagated through the resolver in the `Option` monad.
  * Go maps used as sets are modelled as insert-if-absent lists; the final
    outputs that the code canonicalises (sorted assignment lists, sorted
    related-variable lists) are canonicalised the same way here.
-/

namespace GoAssert

/-- Byte offset into a source file, modelling go/token.Pos. -/
abbrev Offset := Nat

/-- Model of the go/ast expressions inspected by parser.go. -/
inductive Expr where
  | ident (pos : Offset) (name : String)
  | sel (x : Expr) (selPos : Offset) (selName : String)
  | call (fn : Expr) (args : List Expr) (rparen : Offset)
  | unary (opPos : Offset) (op : String) (x : Expr)
  | binary (op : String) (x : Expr) (y : Expr)
  | lit (pos : Offset) (text : String)

mutual
/-- Structural equality of expressions; positions included, so this is node
identity over a well-formed file (see the header notes). -/
def beqExpr : Expr → Expr → Bool
  | .ident p n, .ident q m => p == q && n == m
  | .sel x sp sn, .sel y tp tn => beqExpr x y && sp == tp && sn == tn
  | .call f a r, .call g b t => beqExpr f g && beqExprList a b && r == t
  | .unary p o x, .unary q u y => p == q && o == u && beqExpr x y
  | .binary o x y, .binary u v w => o == u && beqExpr x v && beqExpr y w
  | .lit p t, .lit q u => p == q && t == u
  | _, _ => false

/-- Structural equality of expression lists. -/
def beqExprList : List Expr → List Expr → Bool
  | [], [] => true
  | x :: xs, y :: ys => beqExpr x y && beqExprList xs ys
  | _, _ => false
end

instance : BEq Expr := ⟨beqExpr⟩

/-- Node.Pos() for expressions (go/ast: SelectorExpr.Pos = X.Pos,
CallExpr.Pos = Fun.Pos, UnaryExpr.Pos = OpPos, BinaryExpr.Pos = X.Pos). -/
def exprPos : Expr → Offset
  | .ident p _ => p
  | .sel x _ _ => exprPos x
  | .call fn _ _ => exprPos fn
  | .unary p _ _ => p
  | .binary _ x _ => exprPos x
  | .lit p _ => p

/-- Node.End() for expressions. -/
def exprEnd : Expr → Offset
  | .ident p n => p + n.length
  | .sel _ sp sn => sp + sn.length
  | .call _ _ rp => rp + 1
  | .unary _ _ x => exprEnd x
  | .binary _ _ y => exprEnd y
  | .lit p t => p + t.length

mutual
/-- Canonical go/printer output for an expression (formatNode). -/
def formatExpr : Expr → String
  | .ident _ n => n
  | .sel x _ sn => formatExpr x ++ "." ++ sn
  | .call fn args _ => formatExpr fn ++ "(" ++ formatExprList args ++ ")"
  | .unary _ op x => op ++ formatExpr x
  | .binary op x y => formatExpr x ++ " " ++ op ++ " " ++ formatExpr y
  | .lit _ t => t

/-- Comma-separated formatting of an expression list. -/
def formatExprList : List Expr → String
  | [] => ""
  | [e] => formatExpr e
  | e :: e2 :: rest => formatExpr e ++ ", " ++ formatExprList (e2 :: rest)
end

/-- Model of the go/ast statements inspected by parser.go.  A range
statement keeps its body list together with its brace positions, mirroring
RangeStmt.Body being a *BlockStmt. -/
inductive Stmt where
  | assign (tok : String) (lhs rhs : List Expr)
  | range (forPos : Offset) (key value : Option Expr) (tok : String) (x : Expr)
      (lbrace rbrace : Offset) (body : List Stmt)
  | exprStmt (e : Expr)
  | block (lbrace rbrace : Offset) (body : List Stmt)

/-- Structural equality of optional expressions. -/
def beqOptExpr : Option Expr → Option Expr → Bool
  | none, none => true
  | some a, some b => beqExpr a b
  | _, _ => false

mutual
/-- Structural equality of statements (node identity, as for beqExpr). -/
def beqStmt : Stmt → Stmt → Bool
  | .assign t l r, .assign u m n => t == u && beqExprList l m && beqExprList r n
  | .range fp k v t x lb rb b, .range fq k2 v2 u y lc rc c =>
      fp == fq && beqOptExpr k k2 && beqOptExpr v v2 && t == u && beqExpr x y &&
        lb == lc && rb == rc && beqStmtList b c
  | .exprStmt e, .exprStmt f => beqExpr e f
  | .block lb rb b, .block lc rc c => lb == lc && rb == rc && beqStmtList b c
  | _, _ => false

/-- Structural equality of statement lists. -/
def beqStmtList : List Stmt → List Stmt → Bool
  | [], [] => true
  | x :: xs, y :: ys => beqStmt x y && beqStmtList xs ys
  | _, _ => false
end

instance : BEq Stmt := ⟨beqStmt⟩

/-- Node.Pos() for statements (AssignStmt.Pos = Lhs[0].Pos, RangeStmt.Pos =
the for keyword, ExprStmt.Pos = X.Pos, BlockStmt.Pos = Lbrace).  The
fallbacks for an empty assignment never arise in a parsed file. -/
def stmtPos : Stmt → Offset
  | .assign _ lhs rhs =>
      match lhs with
      | e :: _ => exprPos e
      | [] => match rhs with
              | e :: _ => exprPos e
              | [] => 0
  | .range fp _ _ _ _ _ _ _ => fp
  | .exprStmt e => exprPos e
  | .block lb _ _ => lb

/-- The for-clause text of a range statement as go/printer lays it out. -/
def rangeClause (key value : Option Expr) (tok : String) (x : Expr) : String :=
  match key, value with
  | none, _ => "range " ++ formatExpr x
  | some k, none => formatExpr k ++ " " ++ tok ++ " range " ++ formatExpr x
  | some k, some v =>
      formatExpr k ++ ", " ++ formatExpr v ++ " " ++ tok ++ " range " ++ formatExpr x

mutual
/-- Canonical go/printer output for a statement (formatNode). -/
def formatStmt : Stmt → String
  | .assign tok lhs rhs => formatExprList lhs ++ " " ++ tok ++ " " ++ formatExprList rhs
  | .range _ key value tok x _ _ body =>
      "for " ++ rangeClause key value tok x ++ " " ++ formatBlock body
  | .exprStmt e => formatExpr e
  | .block _ _ body => formatBlock body

/-- Canonical block formatting; an empty block prints as two lines. -/
def formatBlock : List Stmt → String
  | [] => "\x7b\n\x7d"
  | s :: rest => "\x7b\n" ++ ("    " ++ formatStmt s ++ "\n" ++ formatStmtLines rest) ++ "\x7d"

/-- Formatting of the indented statement lines of a block. -/
def formatStmtLines : List Stmt → String
  | [] => ""
  | s :: rest => "    " ++ formatStmt s ++ "\n" ++ formatStmtLines rest
end

/-- Model of *ast.FuncDecl: the func keyword position, the name identifier,
and the body block.  (The receiver and type nodes are not inspected by the
resolver and are omitted.) -/
structure FuncDecl where
  funcPos : Offset
  namePos : Offset
  name : String
  body : Stmt
deriving BEq

/-- Model of *ast.File as its list of function declarations. -/
structure File where
  decls : List FuncDecl

/-- strings.HasPrefix, implemented over the character list so that it
evaluates by reduction. -/
def hasPrefixB (s pre : String) : Bool :=
  s.toList.take pre.length == pre.toList

/-- IsIncluded checks whether child var is a children of parent var
(parser.go).  Go indexes bytes; over the ASCII identifiers at play here,
char indexing agrees. -/
def IsIncluded (parent child : String) : Bool :=
  if child.length < parent.length then false
  else if parent == child then true
  else if hasPrefixB child parent && child.toList.get? parent.length == some '.' then true
  else false

/-- Whether an expression is an *ast.Ident. -/
def isIdent : Expr → Bool
  | .ident _ _ => true
  | _ => false

/-- The for loop inside IsVar (parser.go lines 522-529), with explicit fuel.
The loop body is `x = sel` where `sel` is `x` asserted to *ast.SelectorExpr,
so the loop state never changes; the function returns the final value of `x`
when the loop exits, and `none` when the fuel runs out. -/
def isVarLoop : Nat → Expr → Option Expr
  | 0, _ => none
  | fuel + 1, x =>
      match x with
      | .sel a sp sn => isVarLoop fuel (.sel a sp sn)
      | other => some other

/-- IsVar with explicit fuel for its internal loop: `none` means the loop
has not terminated within the fuel bound. -/
def IsVarFuel (fuel : Nat) (e : Expr) : Option Bool :=
  match e with
  | .ident _ _ => some true
  | .sel x _ _ => (isVarLoop fuel x).map isIdent
  | _ => some false

/-- IsVar (parser.go): returns `some b` when the Go function terminates with
result `b` and `none` when its loop runs forever, which happens exactly when
the selector's base is itself a selector (the loop body never changes `x`). -/
def IsVar (e : Expr) : Option Bool :=
  match e with
  | .ident _ _ => some true
  | .sel x _ _ =>
      match x with
      | .sel _ _ _ => none
      | other => some (isIdent other)
  | _ => some false

/-- isRelated (parser.go): true if target is the same node as expr or a
"parent" of it.  The first test is Go pointer equality, modelled as
structural equality (node identity).  Divergence of IsVar propagates. -/
def isRelated (expr target : Expr) : Option Bool :=
  if expr == target then some true
  else
    (IsVar target).bind fun b =>
      if !b then some false
      else
        match target with
        | .sel tx tp tn =>
            match expr with
            | .ident _ _ => some false
            | _ => some (IsIncluded (formatExpr (.sel tx tp tn)) (formatExpr expr))
        | .ident _ n => some (IsIncluded n (formatExpr expr))
        | _ => some false

mutual
/-- exprVisitor.Visit (parser.go) driven by ast.Walk: collects the related
expressions of an expression in visit order.  A selector whose base passes
IsVar is captured whole and not descended; otherwise only its base is
walked (never the Sel identifier); a bare identifier is captured; every
other node kind is walked into its children (Fun first for calls). -/
def visitExpr : Expr → Option (List Expr)
  | .ident p n => some [.ident p n]
  | .sel x sp sn =>
      (IsVar x).bind fun b =>
        if b then some [.sel x sp sn]
        else visitExpr x
  | .call fn args _ =>
      (visitExpr fn).bind fun l1 =>
        (visitExprList args).map fun l2 => l1 ++ l2
  | .unary _ _ x => visitExpr x
  | .binary _ x y =>
      (visitExpr x).bind fun l1 =>
        (visitExpr y).map fun l2 => l1 ++ l2
  | .lit _ _ => some []

/-- Walking a list of sibling expressions in order. -/
def visitExprList : List Expr → Option (List Expr)
  | [] => some []
  | e :: es =>
      (visitExpr e).bind fun l1 =>
        (visitExprList es).map fun l2 => l1 ++ l2
end

/-- findRelatedExprs (parser.go): run the visitor over an argument. -/
def findRelatedExprs (arg : Expr) : Option (List Expr) :=
  visitExpr arg

/-- A node of the syntax tree as seen by ast.Inspect. -/
inductive Node where
  | decl (d : FuncDecl)
  | stmt (s : Stmt)
  | expr (e : Expr)

/-- Node.Pos() of a visited node. -/
def nodePos : Node → Offset
  | .decl d => d.funcPos
  | .stmt s => stmtPos s
  | .expr e => exprPos e

/-- The exclusion test of findAssignments (parser.go lines 355-359): the
visited call's position equals the position of a registered call. -/
def isExcluded (excl : List Expr) (e : Expr) : Bool :=
  excl.any fun c => exprPos c == exprPos e

mutual
/-- Pre-order listing of an expression as ast.Inspect visits it, with the
subtrees of excluded calls pruned (the findAssignments callback returns
false on them).  go/ast child order: SelectorExpr walks X then Sel,
CallExpr walks Fun then Args, BinaryExpr walks X then Y. -/
def flattenExpr (excl : List Expr) : Expr → List Node
  | .ident p n => [.expr (.ident p n)]
  | .sel x sp sn =>
      .expr (.sel x sp sn) :: (flattenExpr excl x ++ [.expr (.ident sp sn)])
  | .call fn args rp =>
      if isExcluded excl (.call fn args rp) then [.expr (.call fn args rp)]
      else .expr (.call fn args rp) :: (flattenExpr excl fn ++ flattenExprList excl args)
  | .unary p op x => .expr (.unary p op x) :: flattenExpr excl x
  | .binary op x y =>
      .expr (.binary op x y) :: (flattenExpr excl x ++ flattenExpr excl y)
  | .lit p t => [.expr (.lit p t)]

/-- Pre-order listing of sibling expressions. -/
def flattenExprList (excl : List Expr) : List Expr → List Node
  | [] => []
  | e :: es => flattenExpr excl e ++ flattenExprList excl es

/-- Pre-order listing of an optional child node (nil children are not
visited). -/
def flattenOptExpr (excl : List Expr) : Option Expr → List Node
  | none => []
  | some e => flattenExpr excl e

/-- Pre-order listing of a statement.  go/ast child order: AssignStmt walks
Lhs then Rhs; RangeStmt walks Key, Value, X, then its Body block (which is
itself a visited statement node); ExprStmt walks X. -/
def flattenStmt (excl : List Expr) : Stmt → List Node
  | .assign tok lhs rhs =>
      .stmt (.assign tok lhs rhs) :: (flattenExprList excl lhs ++ flattenExprList excl rhs)
  | .range fp key value tok x lb rb body =>
      .stmt (.range fp key value tok x lb rb body) ::
        (flattenOptExpr excl key ++ flattenOptExpr excl value ++ flattenExpr excl x ++
          (.stmt (.block lb rb body) :: flattenStmtList excl body))
  | .exprStmt e => .stmt (.exprStmt e) :: flattenExpr excl e
  | .block lb rb body => .stmt (.block lb rb body) :: flattenStmtList excl body

/-- Pre-order listing of sibling statements. -/
def flattenStmtList (excl : List Expr) : List Stmt → List Node
  | [] => []
  | s :: ss => flattenStmt excl s ++ flattenStmtList excl ss
end

/-- Pre-order listing of a function declaration as ast.Inspect(decl) visits
it: the declaration, its name identifier, then its body. -/
def flattenDecl (excl : List Expr) (d : FuncDecl) : List Node :=
  .decl d :: .expr (.ident d.namePos d.name) :: flattenStmt excl d.body

/-- Pre-order listing of a whole file (for the call-site matcher, which has
no exclusions). -/
def flattenFile (f : File) : List Node :=
  f.decls.foldr (fun d acc => flattenDecl [] d ++ acc) []

/-- State of the backward-scan callback in findAssignments (parser.go lines
301-374): the most recently visited statement, the last statement retained
as an assignment, and the done flag. -/
structure ScanState where
  stmt : Option Stmt
  lastStmt : Option Stmt
  done : Bool
deriving BEq

/-- The Lhs loop of the AssignStmt case (parser.go lines 320-329): the first
identifier on the left-hand side related to expr triggers a match. -/
def firstRelatedLhs (expr : Expr) : List Expr → Option Bool
  | [] => some false
  | l :: ls =>
      match l with
      | .ident p n =>
          (isRelated expr (.ident p n)).bind fun b =>
            if b then some true else firstRelatedLhs expr ls
      | _ => firstRelatedLhs expr ls

/-- The Value check of the RangeStmt case (parser.go lines 343-353). -/
def rangeValueMatch (expr : Expr) (value : Option Expr) : Option Bool :=
  match value with
  | none => some false
  | some v =>
      match v with
      | .ident p n => isRelated expr (.ident p n)
      | _ => some false

/-- The RangeStmt case (parser.go lines 330-353): a nil key ends the check;
an identifier key related to expr matches; otherwise the value is checked. -/
def rangeMatch (expr : Expr) (key value : Option Expr) : Option Bool :=
  match key with
  | none => some false
  | some (.ident p n) =>
      (isRelated expr (.ident p n)).bind fun b =>
        if b then some true else rangeValueMatch expr value
  | some _ => rangeValueMatch expr value

/-- The argument loop of the CallExpr case (parser.go lines 361-370): the
first address-of argument over an expression related to expr matches. -/
def firstAndRelated (expr : Expr) : List Expr → Option Bool
  | [] => some false
  | a :: rest =>
      match a with
      | .unary _ op x =>
          if op == "&" then
            (isRelated expr x).bind fun b =>
              if b then some true else firstAndRelated expr rest
          else firstAndRelated expr rest
      | _ => firstAndRelated expr rest

/-- Whether the visited node triggers `lastStmt = stmt` in the backward-scan
callback: a direct assignment whose left-hand side has an identifier related
to expr, a range binding whose key or value is related, or a non-excluded
call with an address-of argument over a related expression. -/
def nodeMatch (expr : Expr) (excl : List Expr) : Node → Option Bool
  | .stmt (.assign _ lhs _) => firstRelatedLhs expr lhs
  | .stmt (.range _ key value _ _ _ _ _) => rangeMatch expr key value
  | .expr (.call fn args rp) =>
      if isExcluded excl (.call fn args rp) then some false
      else firstAndRelated expr args
  | _ => some false

/-- One step of the backward-scan callback (parser.go lines 305-374): frozen
once done; any node at or beyond the target line sets done; a visited
statement becomes the current `stmt`; a matching node copies `stmt` into
`lastStmt`. -/
def scanStep (lineOf : Offset → Nat) (line : Nat) (expr : Expr) (excl : List Expr)
    (st : ScanState) (n : Node) : Option ScanState :=
  if st.done then some st
  else if line ≤ lineOf (nodePos n) then some { st with done := true }
  else
    let st1 : ScanState :=
      match n with
      | .stmt s => { st with stmt := some s }
      | _ => st
    (nodeMatch expr excl n).map fun b =>
      if b then { st1 with lastStmt := st1.stmt } else st1

/-- The backward scan of findAssignments for one related expression: fold
the callback over the pruned pre-order listing of the declaration. -/
def scanDecl (lineOf : Offset → Nat) (line : Nat) (expr : Expr) (excl : List Expr)
    (d : FuncDecl) : Option ScanState :=
  (flattenDecl excl d).foldlM (scanStep lineOf line expr excl) ⟨none, none, false⟩

/-- State of the call-site matcher callback in ParseArgs (parser.go lines
104-159). -/
structure MatchState where
  funcDecl : Option FuncDecl
  caller : Option Expr
  argExprs : List (Option Expr)
  done : Bool

/-- The callee's simple name (parser.go lines 121-127): the identifier name
or the selector's Sel name, otherwise the empty string. -/
def funName : Expr → String
  | .ident _ n => n
  | .sel _ _ sn => sn
  | _ => ""

/-- The per-index argument selection loop of ParseArgs (parser.go lines
142-155): a negative index has the argument count added; an index outside
the argument range contributes a nil slot. -/
def selectArgs (args : List Expr) (argIndex : List Int) : List (Option Expr) :=
  argIndex.map fun idx0 =>
    let idx : Int := if idx0 < 0 then idx0 + (args.length : Int) else idx0
    if idx < 0 || (args.length : Int) ≤ idx then none
    else args.get? idx.toNat

/-- One step of the call-site matcher callback: frozen once done; a function
declaration becomes the current enclosing declaration; a call whose callee
name matches and whose line span contains the target line is accepted, its
arguments selected, and the traversal marked done. -/
def matchStep (lineOf : Offset → Nat) (name : String) (line : Nat) (argIndex : List Int)
    (st : MatchState) (n : Node) : MatchState :=
  if st.done then st
  else
    match n with
    | .decl d => { st with funcDecl := some d }
    | .expr (.call fn args rp) =>
        if funName fn != name then st
        else if line < lineOf (exprPos (.call fn args rp)) ||
            lineOf (exprEnd (.call fn args rp)) < line then st
        else
          { st with caller := some (.call fn args rp),
                    argExprs := selectArgs args argIndex, done := true }
    | _ => st

/-- The result of parsing a file: the FileSet (offset-to-line map) and the
syntax tree (fileAST in parser.go). -/
structure ParsedAst where
  lineOf : Offset → Nat
  file : File

/-- The behaviour of the file system at a filename: the file cannot be
opened, it opens but its content is syntactically invalid (go/parser then
returns a partial tree together with an error), or it parses cleanly. -/
inductive FsEntry where
  | absent
  | bad (pa : ParsedAst)
  | good (pa : ParsedAst)

/-- The file system as a map from filenames to entries. -/
def FileSys := String → FsEntry

/-- The source cache (fileCache in parser.go), as an association list. -/
abbrev Cache := List (String × ParsedAst)

/-- Lookup in the source cache (fileCache[filename]). -/
def cacheLookup : Cache → String → Option ParsedAst
  | [], _ => none
  | (k, v) :: rest, fn => if k == fn then some v else cacheLookup rest fn

/-- The hard errors of the resolver: the missing-argIndex error of
ParseArgs, the os.Open error, and the go/parser error. -/
inductive PErr where
  | missingArgIndex
  | readErr
  | parseErr
deriving BEq, DecidableEq

/-- parseFile (parser.go lines 243-271): a cache hit returns the stored
entry with a nil error; otherwise the file is opened (failure returns
before anything is cached) and parsed, and the parse result is stored in
the cache even when parsing failed — so a parse error is reported only on
the call that actually parsed. -/
def parseFileM (fs : FileSys) (cache : Cache) (filename : String) :
    Cache × Except PErr ParsedAst :=
  match cacheLookup cache filename with
  | some fa => (cache, .ok fa)
  | none =>
      match fs filename with
      | .absent => (cache, .error .readErr)
      | .bad pa => ((filename, pa) :: cache, .error .parseErr)
      | .good pa => ((filename, pa) :: cache, .ok pa)

/-- Func (parser.go): the AST information handed from ParseArgs to
ParseInfo. -/
structure Func where
  lineOf : Offset → Nat
  func : Option FuncDecl
  caller : Option Expr
  args : List (Option Expr)
  filename : String
  line : Nat

/-- Trimming a qualified assert-function name to its last segment
(parser.go lines 79-83). -/
def trimQualifier (name : String) : String :=
  if name.toList.contains '.' then
    ((name.toList.reverse.takeWhile fun c => c != '.').reverse).asString
  else name

/-- path.Base restricted to the filenames at play (no trailing slash). -/
def baseName (s : String) : String :=
  if s.isEmpty then "."
  else ((s.toList.reverse.takeWhile fun c => c != '/').reverse).asString

/-- Parser.ParseArgs (parser.go lines 67-171) after the caller's file and
line have been resolved from the stack: parse (through the cache), then run
the call-site matcher over the file and build the Func.  When no call
matches, the Func carries a nil caller and an empty argument list. -/
def ParseArgs (fs : FileSys) (cache : Cache) (name : String) (filename : String)
    (line : Nat) (argIndex : List Int) : Cache × Except PErr Func :=
  if argIndex.isEmpty then (cache, .error .missingArgIndex)
  else
    let name := trimQualifier name
    match parseFileM fs cache filename with
    | (cache', res) =>
        let base := baseName filename
        match res with
        | .error e => (cache', .error e)
        | .ok pa =>
            let st := (flattenFile pa.file).foldl
              (matchStep pa.lineOf name line argIndex) ⟨none, none, [], false⟩
            (cache', .ok ⟨pa.lineOf, st.funcDecl, st.caller, st.argExprs, base, line⟩)

/-- Insert-if-absent into a string set modelled as a list (Go map used as a
set). -/
def insertStr (l : List String) (s : String) : List String :=
  if l.contains s then l else l ++ [s]

/-- Insert-if-absent into a statement set modelled as a list
(assignmentStmts in findAssignments). -/
def insertStmt (l : List Stmt) (s : Stmt) : List Stmt :=
  if l.contains s then l else l ++ [s]

/-- Map deletion (delete(relatedVars, src)). -/
def removeStr (l : List String) (s : String) : List String :=
  l.filter fun x => x != s

/-- The backward scan for one related expression, keeping only the retained
statement. -/
def scanForExpr (lineOf : Offset → Nat) (line : Nat) (excl : List Expr)
    (d : FuncDecl) (e : Expr) : Option (Option Stmt) :=
  (scanDecl lineOf line e excl d).map ScanState.lastStmt

/-- The per-expression loop of findAssignments (parser.go lines 301-379):
scan for each related expression and collect the non-nil retained
statements into the statement set. -/
def gatherStmts (lineOf : Offset → Nat) (line : Nat) (excl : List Expr) (d : FuncDecl) :
    List Expr → List Stmt → Option (List Stmt)
  | [], acc => some acc
  | e :: es, acc =>
      (scanForExpr lineOf line excl d e).bind fun last =>
        match last with
        | some s => gatherStmts lineOf line excl d es (insertStmt acc s)
        | none => gatherStmts lineOf line excl d es acc

/-- The collection phase of findAssignments (parser.go lines 381-408): each
retained assignment contributes itself plus its left and right sides; each
retained range statement contributes a copy with an emptied body plus its
key and value; any other retained statement contributes only itself. -/
def collectStmts : List Stmt → List Stmt × List (Option Expr)
  | [] => ([], [])
  | s :: rest =>
      let (stmts, rel) := collectStmts rest
      match s with
      | .assign tok lhs rhs =>
          (.assign tok lhs rhs :: stmts, (lhs.map some ++ rhs.map some) ++ rel)
      | .range fp key value tok x lb rb _ =>
          (.range fp key value tok x lb rb [] :: stmts,
            (key :: match value with
                    | some v => [some v]
                    | none => []) ++ rel)
      | other => (other :: stmts, rel)

/-- findRelatedExprs on a possibly nil expression (ast.Walk on a nil node
visits nothing). -/
def findRelatedExprsOpt : Option Expr → Option (List Expr)
  | none => some []
  | some e => findRelatedExprs e

/-- The related-variable gathering loop of findAssignments (parser.go lines
410-421): run the visitor over every collected expression and insert the
formatted text of each related expression. -/
def gatherRelated : List (Option Expr) → List String → Option (List String)
  | [], acc => some acc
  | oe :: rest, acc =>
      (findRelatedExprsOpt oe).bind fun rs =>
        gatherRelated rest (rs.foldl (fun a r => insertStr a (formatExpr r)) acc)

/-- Slicing of a string by byte range (Go code[a:b]); over the ASCII
scenarios at play char slicing agrees. -/
def sliceStr (s : String) (a b : Nat) : String :=
  ((s.toList.drop a).take (b - a)).asString

/-- The final formatting of one retained statement (parser.go lines
428-437): a range statement is formatted and then sliced between its key's
position and its range operand's end (the binding clause without the for
keyword and braces); Go dereferences rng.Key here, so a retained range with
a nil key crashes, modelled as none. -/
def formatRetainedStmt : Stmt → Option String
  | .range fp key value tok x lb rb body =>
      match key with
      | some k =>
          some (sliceStr (formatStmt (.range fp key value tok x lb rb body))
            (exprPos k - fp) (exprEnd x - fp))
      | none => none
  | s => some (formatStmt s)

/-- findAssignments (parser.go lines 287-441): nil declaration or argument
yields empty results; otherwise the related expressions of the argument are
scanned, the retained statements collected, expanded and formatted in
source-position order, and the related variables gathered with the
argument's own text removed. -/
def findAssignmentsF (lineOf : Offset → Nat) (decl : Option FuncDecl) (line : Nat)
    (arg : Option Expr) (excl : List Expr) : Option (List String × List String) :=
  match decl, arg with
  | some d, some a =>
      let src := formatExpr a
      (findRelatedExprs a).bind fun exprs =>
        if exprs.isEmpty then some ([], [])
        else
          (gatherStmts lineOf line excl d exprs []).bind fun stmtSet =>
            let (stmts, relExprs) := collectStmts stmtSet
            (gatherRelated (some a :: relExprs) []).bind fun relVars0 =>
              let relVars := removeStr relVars0 src
              let sorted := List.insertionSort (fun s t => stmtPos s ≤ stmtPos t) stmts
              (sorted.mapM formatRetainedStmt).map fun assigns => (assigns, relVars)
  | _, _ => some ([], [])

/-- Info (parser.go): the outputs of ParseInfo. -/
structure Info where
  source : String
  args : List String
  assignments : List (List String)
  relatedVars : List String
deriving BEq, DecidableEq

/-- formatNode on a possibly nil node (parser.go lines 273-285): nil
formats to the empty string. -/
def formatNodeOpt : Option Expr → String
  | none => ""
  | some e => formatExpr e

/-- Parser (parser.go): the registered excluded call expressions. -/
structure Parser where
  excluded : List Expr

/-- Parser.AddExcluded (parser.go lines 584-588). -/
def Parser.AddExcluded (p : Parser) (e : Expr) : Parser :=
  { p with excluded := p.excluded ++ [e] }

/-- Byte-wise lexicographic comparison of character lists, as Go's
sort.Strings compares strings (over ASCII, char codes equal byte values). -/
def charListLe : List Char → List Char → Bool
  | [], _ => true
  | _ :: _, [] => false
  | c :: cs, d :: ds =>
      if c.toNat = d.toNat then charListLe cs ds
      else decide (c.toNat < d.toNat)

/-- The string order of sort.Strings. -/
def strLeB (a b : String) : Bool :=
  charListLe a.toList b.toList

/-- The string order of sort.Strings as a relation. -/
def strLe (a b : String) : Prop :=
  strLeB a b = true

instance : DecidableRel strLe := fun a b =>
  inferInstanceAs (Decidable (strLeB a b = true))

/-- The per-argument loop of ParseInfo (parser.go lines 182-190),
accumulating formatted arguments, assignment lists, and the union of the
related-variable sets. -/
def infoLoop (lineOf : Offset → Nat) (fd : Option FuncDecl) (line : Nat) (excl : List Expr) :
    List (Option Expr) → List String × List (List String) × List String →
      Option (List String × List (List String) × List String)
  | [], acc => some acc
  | a :: rest, (args, assigns, rel) =>
      (findAssignmentsF lineOf fd line a excl).bind fun pr =>
        infoLoop lineOf fd line excl rest
          (args ++ [formatNodeOpt a], assigns ++ [pr.1], pr.2.foldl insertStr rel)

/-- Parser.ParseInfo (parser.go lines 175-206): format each selected
argument, find its assignments and related variables, and emit the
deduplicated, lexicographically sorted related-variable list. -/
def ParseInfo (p : Parser) (f : Func) : Option Info :=
  (infoLoop f.lineOf f.func f.line p.excluded f.args ([], [], [])).map fun acc =>
    ⟨formatNodeOpt f.caller, acc.1, acc.2.1, List.insertionSort strLe acc.2.2⟩

/-!  Interleaving model of concurrent parseFile calls on one filename.

parseFile holds fileCacheLock only around the map lookup and only around the
map insert; the os.Open + go/parser work runs between the two critical
sections.  Each critical section is one atomic step here; the parse is its
own step.  All threads target the same, syntactically valid file whose
parse result is `good`. -/

/-- Program counter of one thread running parseFile. -/
inductive TPc where
  | start
  | willParse
  | willInsert (pa : ParsedAst)
  | finished (pa : ParsedAst)

/-- Shared state: the cache entry for the filename, the thread states, and
the number of parses performed so far. -/
structure CState where
  cache : Option ParsedAst
  threads : List TPc
  parses : Nat

/-- One atomic step of thread i: the locked lookup (hit returns the cached
tree, miss proceeds to parse), the unlocked parse, or the locked insert. -/
def stepThread (good : ParsedAst) (s : CState) (i : Nat) : CState :=
  match s.threads.get? i with
  | some .start =>
      match s.cache with
      | some pa => { s with threads := s.threads.set i (.finished pa) }
      | none => { s with threads := s.threads.set i .willParse }
  | some .willParse =>
      { s with threads := s.threads.set i (.willInsert good), parses := s.parses + 1 }
  | some (.willInsert pa) =>
      { s with cache := some pa, threads := s.threads.set i (.finished pa) }
  | _ => s

/-- Run a schedule (a list of thread indices) from a state. -/
def runSched (good : ParsedAst) : CState → List Nat → CState
  | s, [] => s
  | s, i :: rest => runSched good (stepThread good s i) rest

/-- Initial state with n threads about to call parseFile. -/
def initCState (n : Nat) : CState :=
  ⟨none, List.replicate n .start, 0⟩

/-!  Concrete scenarios.  Offsets encode line*100 + column (lineOf divides
by 100), consistent with the canonical gofmt layout of each file. -/

/-- Line map of the scenario files. -/
def lines100 : Offset → Nat := fun off => off / 100

/-- Scenario A, file t.go:
func TestTrack() {        (line 1)
    v1 := 42              (line 2)
    v2 := 7               (line 3)
    Track(&v1, &v2)       (line 4)
    Check(v1 == 123)      (line 5)
}                         (line 6) -/
def assignV1 : Stmt := .assign ":=" [.ident 204 "v1"] [.lit 210 "42"]

/-- The v2 assignment of scenario A. -/
def assignV2 : Stmt := .assign ":=" [.ident 304 "v2"] [.lit 310 "7"]

/-- The Track call of scenario A. -/
def trackCall : Expr :=
  .call (.ident 404 "Track") [.unary 410 "&" (.ident 411 "v1"), .unary 415 "&" (.ident 416 "v2")] 418

/-- The Track statement of scenario A. -/
def trackStmt : Stmt := .exprStmt trackCall

/-- The Check call of scenario A. -/
def checkCallA : Expr :=
  .call (.ident 504 "Check") [.binary "==" (.ident 510 "v1") (.lit 516 "123")] 519

/-- The Check statement of scenario A. -/
def checkStmtA : Stmt := .exprStmt checkCallA

/-- The function declaration of scenario A. -/
def declA : FuncDecl :=
  ⟨100, 105, "TestTrack", .block 117 600 [assignV1, assignV2, trackStmt, checkStmtA]⟩

/-- The parsed scenario-A file. -/
def paA : ParsedAst := ⟨lines100, ⟨[declA]⟩⟩

/-- File system serving scenario A at t.go. -/
def fsA : FileSys := fun fn => if fn == "t.go" then .good paA else .absent

/-- Scenario B, file loop.go:
func TestLoop() {                 (line 1)
    for i, c := range items {     (line 2)
        Check(c.Value)            (line 3)
    }                             (line 4)
}                                 (line 5) -/
def checkCallB : Expr :=
  .call (.ident 308 "Check") [.sel (.ident 314 "c") 316 "Value"] 321

/-- The Check statement of scenario B. -/
def checkStmtB : Stmt := .exprStmt checkCallB

/-- The range statement of scenario B. -/
def rangeB : Stmt :=
  .range 204 (some (.ident 208 "i")) (some (.ident 211 "c")) ":=" (.ident 222 "items")
    228 404 [checkStmtB]

/-- The function declaration of scenario B. -/
def declB : FuncDecl := ⟨100, 105, "TestLoop", .block 116 500 [rangeB]⟩

/-- The parsed scenario-B file. -/
def paB : ParsedAst := ⟨lines100, ⟨[declB]⟩⟩

/-- File system serving scenario B at loop.go. -/
def fsB : FileSys := fun fn => if fn == "loop.go" then .good paB else .absent

/-- Scenario C, file nf.go — a file in which the target call name does not
occur:
func TestNone() {       (line 1)
    foo()               (line 2)
}                       (line 3) -/
def declC : FuncDecl :=
  ⟨100, 105, "TestNone", .block 116 300 [.exprStmt (.call (.ident 204 "foo") [] 207)]⟩

/-- The parsed scenario-C file. -/
def paC : ParsedAst := ⟨lines100, ⟨[declC]⟩⟩

/-- File system serving scenario C at nf.go. -/
def fsC : FileSys := fun fn => if fn == "nf.go" then .good paC else .absent

/-- A parse result standing for the partial tree go/parser returns for a
syntactically invalid file. -/
def paBad : ParsedAst := ⟨lines100, ⟨[]⟩⟩

/-- File system whose only file bad.go has syntactically invalid content. -/
def fsBad : FileSys := fun fn => if fn == "bad.go" then .bad paBad else .absent

/-- The expression obj.field.Method() of the relatedness claims. -/
def objFieldMethod : Expr :=
  .call (.sel (.sel (.ident 0 "obj") 4 "field") 10 "Method") [] 17

/-- The selector chain a.b.c. -/
def chainABC : Expr := .sel (.sel (.ident 0 "a") 2 "b") 4 "c"

/-- The selector chain a.b.c.d. -/
def chainABCD : Expr := .sel chainABC 6 "d"

/-- A parser with no excluded calls. -/
def noExcl : Parser := ⟨[]⟩

/-- A parser with the scenario-A Track call registered as excluded. -/
def exclTrack : Parser := Parser.AddExcluded ⟨[]⟩ trackCall

/-!  Specification-side description of the backward scan, for comparison
with `scanDecl`: instead of retaining only the most recent match, it lists
every match event (the current statement at each matching node) in
traversal order, which is the top-to-bottom source order of the pre-order
listing. -/

/-- State of the event-listing scan. -/
structure EventState where
  stmt : Option Stmt
  events : List (Option Stmt)
  done : Bool

/-- One step of the event-listing scan: identical guards to `scanStep`, but
a matching node appends the current statement instead of overwriting. -/
def eventStep (lineOf : Offset → Nat) (line : Nat) (expr : Expr) (excl : List Expr)
    (st : EventState) (n : Node) : Option EventState :=
  if st.done then some st
  else if line ≤ lineOf (nodePos n) then some { st with done := true }
  else
    let st1 : EventState :=
      match n with
      | .stmt s => { st with stmt := some s }
      | _ => st
    (nodeMatch expr excl n).map fun b =>
      if b then { st1 with events := st1.events ++ [st1.stmt] } else st1

/-- The event-listing scan over a declaration. -/
def scanEvents (lineOf : Offset → Nat) (line : Nat) (expr : Expr) (excl : List Expr)
    (d : FuncDecl) : Option (List (Option Stmt)) :=
  ((flattenDecl excl d).foldlM (eventStep lineOf line expr excl) ⟨none, [], false⟩).map
    EventState.events

/-- The last match event of the scan, if any. -/
def lastEvent (l : List (Option Stmt)) : Option Stmt :=
  l.getLast?.getD none

/-- Witness state of the scenario-A scan for v1 with Track excluded. -/
def stateA : ScanState := ⟨some trackStmt, some assignV1, true⟩

/-- The related expression v1 inside scenario A's Check argument. -/
def exprV1A : Expr := .ident 510 "v1"

/-- The Func produced by resolving Check in scenario B. -/
def funcB : Func :=
  ⟨lines100, some declB, some checkCallB, [some (.sel (.ident 314 "c") 316 "Value")],
    "loop.go", 3⟩

/-- The Info produced by resolving Check in scenario B. -/
def infoB : Info :=
  ⟨"Check(c.Value)", ["c.Value"], [["i, c := range items"]], ["c", "i"]⟩

/-- The Info produced in scenario A with the Track call excluded. -/
def infoTrackExcl : Info :=
  ⟨"Check(v1 == 123)", ["v1 == 123"], [["v1 := 42"]], ["v1"]⟩

/-- The Info produced in scenario A without the exclusion. -/
def infoTrackIncl : Info :=
  ⟨"Check(v1 == 123)", ["v1 == 123"], [["Track(&v1, &v2)"]], ["v1"]⟩

/-- A three-element argument list for the negative-index instance. -/
def threeArgs : List Expr := [.ident 0 "x", .ident 2 "y", .ident 4 "z"]
/-- Invariant of the call-site matcher state: either no call has been
accepted yet (no caller, no slots) or a call has been accepted and the
slots are exactly its selected arguments. -/
def matcherInv (argIndex : List Int) (st : MatchState) : Prop :=
  (st.caller = none ∧ st.argExprs = []) ∨
  (∃ fnE args rp, st.caller = some (.call fnE args rp) ∧
    st.argExprs = selectArgs args argIndex)

/-- Relation between the backward-scan state and the event-listing state:
same current statement, same done flag, the retained statement is the last
match event, every event statement lies strictly before the target line,
and so does the current statement. -/
def scanRel (lineOf : Offset → Nat) (line : Nat) (st : ScanState) (est : EventState) : Prop :=
  st.stmt = est.stmt ∧ st.done = est.done ∧ st.lastStmt = lastEvent est.events ∧
  (∀ os ∈ est.events, ∀ s, os = some s → lineOf (stmtPos s) < line) ∧
  (∀ s, st.stmt = some s → lineOf (stmtPos s) < line)

/-- Invariant of the concurrency model: the cache is empty or holds the
correctly parsed tree, and every thread about to insert or already finished
holds the correctly parsed tree. -/
def cInv (good : ParsedAst) (s : CState) : Prop :=
  (s.cache = none ∨ s.cache = some good) ∧
  ∀ t ∈ s.threads, (∀ pa, t = TPc.willInsert pa → pa = good) ∧
    (∀ pa, t = TPc.finished pa → pa = good)

/-!  Helper lemmas. -/

/-- The IsVar loop body `x = sel` leaves `x` unchanged whenever `x` is a
selector, so on a selector the loop consumes all fuel without exiting. -/
theorem isVarLoop_sel (fuel : Nat) (a : Expr) (sp : Offset) (sn : String) :
    isVarLoop fuel (.sel a sp sn) = none := by
  induction fuel with
  | zero => rfl
  | succ k ih => simpa [isVarLoop] using ih

/-- With any positive fuel, the fueled IsVar agrees with the fuel-free
divergence-aware IsVar. -/
theorem isVarFuel_succ_eq (fuel : Nat) (e : Expr) :
    IsVarFuel (fuel + 1) e = IsVar e := by
  cases e with
  | sel x sp sn =>
      cases x <;> simp [IsVarFuel, IsVar, isVarLoop, isVarLoop_sel, isIdent]
  | ident p n => rfl
  | call fn args rp => rfl
  | unary p op x => rfl
  | binary op x y => rfl
  | lit p t => rfl

/-- One matcher step preserves the matcher invariant. -/
theorem matchStep_inv (lineOf : Offset → Nat) (name : String) (line : Nat)
    (argIndex : List Int) (st : MatchState) (n : Node)
    (h : matcherInv argIndex st) :
    matcherInv argIndex (matchStep lineOf name line argIndex st n) := by
  unfold matchStep
  split
  · exact h
  · cases n with
    | decl d => exact h
    | stmt s => exact h
    | expr e =>
        cases e with
        | call fn args rp =>
            by_cases h1 : funName fn != name
            · simpa [h1] using h
            · by_cases h2 : line < lineOf (exprPos (.call fn args rp)) ||
                  lineOf (exprEnd (.call fn args rp)) < line
              · simpa [h1, h2] using h
              · right
                refine ⟨fn, args, rp, ?_, ?_⟩ <;> simp [h1, h2]
        | ident p nm => exact h
        | sel x sp sn => exact h
        | unary p op x => exact h
        | binary op x y => exact h
        | lit p t => exact h

/-- The matcher fold preserves the matcher invariant. -/
theorem matchFold_inv (lineOf : Offset → Nat) (name : String) (line : Nat)
    (argIndex : List Int) (ns : List Node) (st : MatchState)
    (h : matcherInv argIndex st) :
    matcherInv argIndex (ns.foldl (matchStep lineOf name line argIndex) st) := by
  induction ns generalizing st with
  | nil => exact h
  | cons n rest ih =>
      exact ih _ (matchStep_inv lineOf name line argIndex st n h)

/-- Shape of a successful ParseArgs result: either no call was matched (nil
caller, empty slots) or a call was matched and the slots are its selected
arguments. -/
theorem parseArgs_ok_shape (fs : FileSys) (cache : Cache) (name fn : String)
    (line : Nat) (argIndex : List Int) (f : Func)
    (hok : (ParseArgs fs cache name fn line argIndex).2 = .ok f) :
    (f.caller = none ∧ f.args = []) ∨
    (∃ fnE args rp, f.caller = some (.call fnE args rp) ∧
      f.args = selectArgs args argIndex) := by
  unfold ParseArgs at hok
  by_cases he : argIndex.isEmpty
  · simp [he] at hok
  · simp only [he, if_false, Bool.false_eq_true] at hok
    rcases hp : parseFileM fs cache fn with ⟨c2, res⟩
    rw [hp] at hok
    cases res with
    | error e => simp at hok
    | ok pa =>
        simp only [Except.ok.injEq] at hok
        have hinv := matchFold_inv pa.lineOf (trimQualifier name) line argIndex
          (flattenFile pa.file) ⟨none, none, [], false⟩ (Or.inl ⟨rfl, rfl⟩)
        rw [← hok]
        exact hinv

/-- Shape of a successful infoLoop run: the formatted arguments are
appended in order, one per input slot, and one assignment list is appended
per input slot. -/
theorem infoLoop_shape (lineOf : Offset → Nat) (fd : Option FuncDecl) (line : Nat)
    (excl : List Expr) (l : List (Option Expr))
    (acc : List String × List (List String) × List String)
    (out : List String × List (List String) × List String)
    (h : infoLoop lineOf fd line excl l acc = some out) :
    out.1 = acc.1 ++ l.map formatNodeOpt ∧
    out.2.1.length = acc.2.1.length + l.length := by
  induction l generalizing acc with
  | nil =>
      simp only [infoLoop, Option.some.injEq] at h
      subst h
      simp
  | cons a rest ih =>
      obtain ⟨a1, a2, a3⟩ := acc
      simp only [infoLoop] at h
      cases hfa : findAssignmentsF lineOf fd line a excl with
      | none => rw [hfa] at h; simp at h
      | some pr =>
          rw [hfa] at h
          simp only [Option.some_bind] at h
          have := ih _ h
          refine And.intro (by simpa using this.1) (by simp at this ⊢; omega)

/-- Appending one event makes it the last event. -/
theorem lastEvent_concat (l : List (Option Stmt)) (x : Option Stmt) :
    lastEvent (l ++ [x]) = x := by
  simp [lastEvent]

/-- One step preserves the scan/event relation (or both diverge). -/
theorem scanStep_events_rel (lineOf : Offset → Nat) (line : Nat) (e : Expr)
    (excl : List Expr) (st : ScanState) (est : EventState) (n : Node)
    (h : scanRel lineOf line st est) :
    (scanStep lineOf line e excl st n = none ∧
      eventStep lineOf line e excl est n = none) ∨
    (∃ st2 est2, scanStep lineOf line e excl st n = some st2 ∧
      eventStep lineOf line e excl est n = some est2 ∧ scanRel lineOf line st2 est2) := by
  obtain ⟨h1, h2, h3, h4, h5⟩ := h
  unfold scanStep eventStep
  by_cases hd : st.done
  · right
    exact ⟨st, est, by simp [hd], by simp [← h2, hd], h1, h2, h3, h4, h5⟩
  · by_cases hc : line ≤ lineOf (nodePos n)
    · right
      refine ⟨{ st with done := true }, { est with done := true },
        by simp [hd, hc], by simp [← h2, hd, hc], h1, by simp, h3, h4, h5⟩
    · have hnl : lineOf (nodePos n) < line := Nat.lt_of_not_le hc
      cases n with
      | decl d =>
          right
          refine ⟨st, est, ?_, ?_, h1, h2, h3, h4, h5⟩
          · simp [hd, hc, nodeMatch]
          · simp [← h2, hd, hc, nodeMatch]
      | stmt s =>
          cases hm : nodeMatch e excl (.stmt s) with
          | none =>
              left
              constructor <;> simp [hd, hc, ← h2, hm]
          | some b =>
              right
              have hb : ∀ s2 : Stmt, (some s : Option Stmt) = some s2 →
                  lineOf (stmtPos s2) < line := by
                intro s2 hs2
                cases hs2
                exact hnl
              cases b with
              | false =>
                  refine ⟨{ st with stmt := some s }, { est with stmt := some s },
                    ?_, ?_, rfl, h2, h3, h4, hb⟩
                  · simp [hd, hc, hm]
                  · simp [← h2, hd, hc, hm]
              | true =>
                  refine ⟨{ st with stmt := some s, lastStmt := some s },
                    { est with stmt := some s, events := est.events ++ [some s] },
                    ?_, ?_, rfl, h2, ?_, ?_, hb⟩
                  · simp [hd, hc, hm]
                  · simp [← h2, hd, hc, hm]
                  · simp [lastEvent_concat]
                  · intro os hos s2 hs2
                    rcases List.mem_append.mp hos with hin | hin
                    · exact h4 os hin s2 hs2
                    · have heq : os = some s := by simpa using hin
                      subst heq
                      exact hb s2 hs2
      | expr e2 =>
          cases hm : nodeMatch e excl (.expr e2) with
          | none =>
              left
              constructor <;> simp [hd, hc, ← h2, hm]
          | some b =>
              right
              cases b with
              | false =>
                  refine ⟨st, est, ?_, ?_, h1, h2, h3, h4, h5⟩
                  · simp [hd, hc, hm]
                  · simp [← h2, hd, hc, hm]
              | true =>
                  refine ⟨{ st with lastStmt := st.stmt },
                    { est with events := est.events ++ [est.stmt] },
                    ?_, ?_, h1, h2, ?_, ?_, h5⟩
                  · simp [hd, hc, hm]
                  · simp [← h2, hd, hc, hm]
                  · simp only [lastEvent_concat]
                    exact h1
                  · intro os hos s2 hs2
                    rcases List.mem_append.mp hos with hin | hin
                    · exact h4 os hin s2 hs2
                    · have heq : os = est.stmt := by simpa using hin
                      subst heq
                      apply h5
                      rw [h1, hs2]

/-- The fold preserves the scan/event relation (or both diverge). -/
theorem scanFold_events_rel (lineOf : Offset → Nat) (line : Nat) (e : Expr)
    (excl : List Expr) (ns : List Node) (st : ScanState) (est : EventState)
    (h : scanRel lineOf line st est) :
    (ns.foldlM (scanStep lineOf line e excl) st = none ∧
      ns.foldlM (eventStep lineOf line e excl) est = none) ∨
    (∃ st2 est2, ns.foldlM (scanStep lineOf line e excl) st = some st2 ∧
      ns.foldlM (eventStep lineOf line e excl) est = some est2 ∧
      scanRel lineOf line st2 est2) := by
  induction ns generalizing st est with
  | nil => right; exact ⟨st, est, rfl, rfl, h⟩
  | cons n rest ih =>
      rcases scanStep_events_rel lineOf line e excl st est n h with
        ⟨hs, he⟩ | ⟨st1, est1, hs, he, hrel⟩
      · left
        constructor <;> simp [List.foldlM_cons, hs, he]
      · rcases ih st1 est1 hrel with ⟨hs2, he2⟩ | ⟨st2, est2, hs2, he2, hrel2⟩
        · left
          constructor <;> simp [List.foldlM_cons, hs, he, hs2, he2]
        · right
          exact ⟨st2, est2, by simp [List.foldlM_cons, hs, hs2],
            by simp [List.foldlM_cons, he, he2], hrel2⟩

/-!  Claim theorems. -/

/-- C5: the claim states that every resolution terminates, in particular
the relatedness walk over any dotted attribute chain such as a.b.c.d.  In
the code, the for loop inside IsVar executes `x = sel` (not `x = sel.X`),
so its state never changes: whenever the selector's base is itself a
selector the loop never exits, for any amount of fuel; consequently IsVar
diverges on a.b.c and the relatedness walk diverges on a.b.c.d. -/
theorem c5_isvar_diverges :
    (∀ (fuel : Nat) (x : Expr) (sp p : Offset) (sn q : String),
        IsVarFuel fuel (Expr.sel (Expr.sel x sp sn) p q) = none) ∧
    IsVar chainABC = none ∧
    findRelatedExprs chainABCD = none := by
  refine ⟨fun fuel x sp p sn q => ?_, rfl, rfl⟩
  simp [IsVarFuel, isVarLoop_sel]

/-- C2: the claim states that a call's callee is never related and that
obj.field.Method() yields exactly the related set containing obj.field.
The visitor has no CallExpr case, so it walks the callee like any other
child, and on the callee selector it captures the node itself (method name
included) once IsVar accepts its base: the related set of
obj.field.Method() is the full chain obj.field.Method, not obj.field. -/
theorem c2_callee_related :
    (findRelatedExprs objFieldMethod).map (fun l => l.map formatExpr) =
        some ["obj.field.Method"] ∧
    (findRelatedExprs objFieldMethod).map (fun l => l.map formatExpr) ≠
        some ["obj.field"] :=
  ⟨rfl, by decide⟩

/-- C1 counterexample: in the soft not-found case the argument and
assignment lists are empty rather than one empty slot per requested index.
Resolving Check in a file that contains no Check call produces a Func with
no caller and an empty argument list, and ParseInfo then returns lists of
length 0 although one index was requested. -/
theorem c1_counterexample :
    ((ParseArgs fsC [] "Check" "nf.go" 2 [0]).2.toOption.bind fun f =>
        (ParseInfo noExcl f).map fun i => (i.args.length, i.assignments.length)) =
      some (0, 0) ∧ ([0] : List Int).length = 1 :=
  ⟨rfl, rfl⟩

/-- C1 amended: for every resolution that does not fail with a hard error,
the argument and assignment lists of ParseInfo have exactly one entry per
slot of the Func, in request order, each argument slot formatted with the
empty string standing for an unmatched slot; when a call was matched the
number of slots equals the number of requested indices, but in the soft
not-found case the Func carries no slots at all, so both lists are empty
rather than one empty entry per requested index. -/
theorem c1_slot_lengths (fs : FileSys) (cache : Cache) (name fn : String)
    (line : Nat) (argIndex : List Int) (p : Parser) (f : Func) (i : Info)
    (hok : (ParseArgs fs cache name fn line argIndex).2 = .ok f)
    (hinfo : ParseInfo p f = some i) :
    i.args = f.args.map formatNodeOpt ∧
    i.args.length = f.args.length ∧
    i.assignments.length = f.args.length ∧
    (∀ c, f.caller = some c → f.args.length = argIndex.length) ∧
    (f.caller = none → f.args = []) := by
  obtain ⟨acc, hacc, hi⟩ : ∃ acc, infoLoop f.lineOf f.func f.line p.excluded f.args
      ([], [], []) = some acc ∧
      i = ⟨formatNodeOpt f.caller, acc.1, acc.2.1, List.insertionSort strLe acc.2.2⟩ := by
    unfold ParseInfo at hinfo
    cases hl : infoLoop f.lineOf f.func f.line p.excluded f.args ([], [], []) with
    | none => rw [hl] at hinfo; simp at hinfo
    | some acc =>
        rw [hl] at hinfo
        simp only [Option.map_some', Option.some.injEq] at hinfo
        exact ⟨acc, rfl, hinfo.symm⟩
  have hshape := infoLoop_shape f.lineOf f.func f.line p.excluded f.args _ _ hacc
  have hargs : i.args = f.args.map formatNodeOpt := by
    rw [hi]; simpa using hshape.1
  have hlen : i.args.length = f.args.length := by
    rw [hargs, List.length_map]
  have halen : i.assignments.length = f.args.length := by
    rw [hi]; simpa using hshape.2
  refine ⟨hargs, hlen, halen, ?_, ?_⟩
  · intro c hc
    rcases parseArgs_ok_shape fs cache name fn line argIndex f hok with
      ⟨h1, _⟩ | ⟨fnE, args, rp, h1, h2⟩
    · rw [h1] at hc; cases hc
    · rw [h2]; simp [selectArgs]
  · intro hc
    rcases parseArgs_ok_shape fs cache name fn line argIndex f hok with
      ⟨_, h2⟩ | ⟨fnE, args, rp, h1, _⟩
    · exact h2
    · rw [hc] at h1; cases h1

/-- C1 witness: the amended statement applied to the concrete scenario-B
resolution, whose hypotheses hold by evaluation. -/
theorem c1_slot_lengths_witness :
    (ParseArgs fsB [] "Check" "loop.go" 3 [0]).2 = .ok funcB ∧
    ParseInfo noExcl funcB = some infoB ∧
    (infoB.args = funcB.args.map formatNodeOpt ∧
      infoB.args.length = funcB.args.length ∧
      infoB.assignments.length = funcB.args.length ∧
      (∀ c, funcB.caller = some c → funcB.args.length = ([0] : List Int).length) ∧
      (funcB.caller = none → funcB.args = [])) :=
  ⟨rfl, rfl, c1_slot_lengths fsB [] "Check" "loop.go" 3 [0] noExcl funcB infoB rfl rfl⟩

/-- C8: for every matched call, the selected slots are computed by the
per-index selection: a negative index is normalized by adding the call's
argument count (index -1 on a 3-argument call selects the same expression
as index 2), an index outside the argument range after normalization
yields an absent slot rather than an error, each requested index is
selected independently of the others, and the slot list has exactly one
entry per requested index. -/
theorem c8_argument_selection :
    (∀ (fs : FileSys) (cache : Cache) (name fn : String) (line : Nat)
        (argIndex : List Int) (f : Func) (fnE : Expr) (args : List Expr) (rp : Offset),
        (ParseArgs fs cache name fn line argIndex).2 = .ok f →
        f.caller = some (.call fnE args rp) →
        f.args = selectArgs args argIndex) ∧
    (∀ (args : List Expr) (argIndex : List Int),
        (selectArgs args argIndex).length = argIndex.length) ∧
    (∀ (args : List Expr) (pre post : List Int) (idx : Int),
        selectArgs args (pre ++ idx :: post) =
          selectArgs args pre ++ selectArgs args [idx] ++ selectArgs args post) ∧
    (∀ args : List Expr, args.length = 3 →
        selectArgs args [-1] = selectArgs args [2]) ∧
    (∀ (args : List Expr) (idx : Int),
        ((if idx < 0 then idx + (args.length : Int) else idx) < 0 ∨
          (args.length : Int) ≤ (if idx < 0 then idx + (args.length : Int) else idx)) →
        selectArgs args [idx] = [none]) := by
  refine ⟨?_, ?_, ?_, ?_, ?_⟩
  · intro fs cache name fn line argIndex f fnE args rp hok hc
    rcases parseArgs_ok_shape fs cache name fn line argIndex f hok with
      ⟨h1, _⟩ | ⟨fnE2, args2, rp2, h1, h2⟩
    · rw [h1] at hc; cases hc
    · rw [h1] at hc
      injection hc with hc
      cases hc
      exact h2
  · intro args argIndex
    simp [selectArgs]
  · intro args pre post idx
    simp [selectArgs]
  · intro args h
    simp [selectArgs, h]
  · intro args idx h
    have hb : (decide ((if idx < 0 then idx + (args.length : Int) else idx) < 0) ||
        decide ((args.length : Int) ≤
          (if idx < 0 then idx + (args.length : Int) else idx))) = true := by
      rcases h with h | h <;> simp [h]
    simp only [selectArgs, List.map]
    rw [if_pos hb]

/-- C8 witness: the selection equation applied to the scenario-B
resolution, and the negative-index instance on a concrete three-argument
list. -/
theorem c8_argument_selection_witness :
    ((ParseArgs fsB [] "Check" "loop.go" 3 [0]).2 = .ok funcB ∧
      funcB.caller = some (.call (.ident 308 "Check")
        [.sel (.ident 314 "c") 316 "Value"] 321) ∧
      funcB.args = selectArgs [.sel (.ident 314 "c") 316 "Value"] [0]) ∧
    (threeArgs.length = 3 ∧ selectArgs threeArgs [-1] = selectArgs threeArgs [2]) :=
  ⟨⟨rfl, rfl,
      c8_argument_selection.1 fsB [] "Check" "loop.go" 3 [0] funcB
        (.ident 308 "Check") [.sel (.ident 314 "c") 316 "Value"] 321 rfl rfl⟩,
    ⟨rfl, c8_argument_selection.2.2.2.1 threeArgs rfl⟩⟩

/-- C7 counterexample: for `for i, c := range items { Check(c.Value) }` the
related-variable list is ["c", "i"]: it contains the bare c and not
c.Value, because findAssignments deletes the argument's own formatted text
(here exactly "c.Value") and the range collection adds the bare value
identifier c. -/
theorem c7_counterexample :
    ((ParseArgs fsB [] "Check" "loop.go" 3 [0]).2.toOption.bind fun f =>
        ParseInfo noExcl f) = some infoB ∧
    infoB.relatedVars = ["c", "i"] ∧
    ¬ "c.Value" ∈ infoB.relatedVars ∧ "c" ∈ infoB.relatedVars :=
  ⟨rfl, rfl, by decide, by decide⟩

/-- C7 amended: resolving Check on its argument in
`for i, c := range items { Check(c.Value) }` retains as the assignment
exactly the binding clause "i, c := range items" with the loop body
excluded, and the related-variable list contains i and the bare c while
excluding c.Value (removed as the argument's own text) and items. -/
theorem c7_loop_binding :
    ((ParseArgs fsB [] "Check" "loop.go" 3 [0]).2.toOption.bind fun f =>
        ParseInfo noExcl f) = some infoB ∧
    infoB.assignments = [["i, c := range items"]] ∧
    infoB.relatedVars = ["c", "i"] ∧
    ¬ "items" ∈ infoB.relatedVars :=
  ⟨rfl, rfl, rfl, by decide⟩

/-- C3 counterexample: a file with syntactically invalid content yields a
parse error only on the first lookup; the parse result is cached, so the
second lookup returns the cached tree with no error. -/
theorem c3_counterexample :
    (parseFileM fsBad [] "bad.go").2 = .error .parseErr ∧
    (parseFileM fsBad (parseFileM fsBad [] "bad.go").1 "bad.go").2 = .ok paBad :=
  ⟨rfl, rfl⟩

/-- C10 counterexample: with the lock released between the cache lookup and
the insert, two threads can both miss the cache and both parse the same
file: under the schedule below both threads finish with the parsed tree but
the file has been parsed twice, contradicting at-most-one parse per
filename. -/
theorem c10_counterexample :
    (runSched paA (initCState 2) [0, 1, 0, 0, 1, 1]).parses = 2 ∧
    (runSched paA (initCState 2) [0, 1, 0, 0, 1, 1]).threads.get? 0 =
        some (.finished paA) ∧
    (runSched paA (initCState 2) [0, 1, 0, 0, 1, 1]).threads.get? 1 =
        some (.finished paA) ∧
    ¬ (2 : Nat) ≤ 1 :=
  ⟨rfl, rfl, rfl, by decide⟩

/-- Inversion of a successful ParseInfo run. -/
theorem parseInfo_some (p : Parser) (f : Func) (i : Info)
    (hinfo : ParseInfo p f = some i) :
    ∃ acc, infoLoop f.lineOf f.func f.line p.excluded f.args ([], [], []) = some acc ∧
      i = ⟨formatNodeOpt f.caller, acc.1, acc.2.1, List.insertionSort strLe acc.2.2⟩ := by
  unfold ParseInfo at hinfo
  cases hl : infoLoop f.lineOf f.func f.line p.excluded f.args ([], [], []) with
  | none => rw [hl] at hinfo; simp at hinfo
  | some acc =>
      rw [hl] at hinfo
      simp only [Option.map_some', Option.some.injEq] at hinfo
      exact ⟨acc, rfl, hinfo.symm⟩

/-- Totality of the sort.Strings comparison. -/
theorem charListLe_total (a b : List Char) :
    charListLe a b = true ∨ charListLe b a = true := by
  induction a generalizing b with
  | nil => left; rfl
  | cons c cs ih =>
      cases b with
      | nil => right; rfl
      | cons d ds =>
          by_cases hcd : c.toNat = d.toNat
          · rcases ih ds with h | h
            · left; simp [charListLe, hcd, h]
            · right; simp [charListLe, hcd.symm, h]
          · simp only [charListLe]
            rw [if_neg hcd, if_neg (fun hh => hcd hh.symm)]
            simp only [decide_eq_true_eq]
            omega

/-- Transitivity of the sort.Strings comparison. -/
theorem charListLe_trans (a b c : List Char) (h1 : charListLe a b = true)
    (h2 : charListLe b c = true) : charListLe a c = true := by
  induction a generalizing b c with
  | nil => rfl
  | cons x xs ih =>
      cases b with
      | nil => simp [charListLe] at h1
      | cons y ys =>
          cases c with
          | nil => simp [charListLe] at h2
          | cons z zs =>
              simp only [charListLe] at h1 h2 ⊢
              by_cases hxy : x.toNat = y.toNat
              · rw [if_pos hxy] at h1
                by_cases hyz : y.toNat = z.toNat
                · rw [if_pos hyz] at h2
                  rw [if_pos (hxy.trans hyz)]
                  exact ih ys zs h1 h2
                · rw [if_neg hyz] at h2
                  simp only [decide_eq_true_eq] at h2
                  rw [if_neg (by omega)]
                  simp only [decide_eq_true_eq]
                  omega
              · rw [if_neg hxy] at h1
                simp only [decide_eq_true_eq] at h1
                by_cases hyz : y.toNat = z.toNat
                · rw [if_neg (by omega)]
                  simp only [decide_eq_true_eq]
                  omega
                · rw [if_neg hyz] at h2
                  simp only [decide_eq_true_eq] at h2
                  rw [if_neg (by omega)]
                  simp only [decide_eq_true_eq]
                  omega

instance : IsTotal String strLe :=
  ⟨fun a b => charListLe_total a.toList b.toList⟩

instance : IsTrans String strLe :=
  ⟨fun a b c h1 h2 => charListLe_trans a.toList b.toList c.toList h1 h2⟩

/-- Insert-if-absent preserves the no-duplicates property (map keys are
unique). -/
theorem insertStr_nodup (l : List String) (s : String) (h : l.Nodup) :
    (insertStr l s).Nodup := by
  unfold insertStr
  split
  · exact h
  · rename_i hcon
    refine List.Nodup.append h (List.nodup_singleton s) ?_
    intro a ha hmem
    rw [List.mem_singleton] at hmem
    subst hmem
    exact hcon (List.elem_iff.mpr ha)

/-- Folding insert-if-absent preserves the no-duplicates property. -/
theorem foldl_insertStr_nodup (l : List String) (acc : List String)
    (h : acc.Nodup) : (l.foldl insertStr acc).Nodup := by
  induction l generalizing acc with
  | nil => exact h
  | cons x xs ih => exact ih _ (insertStr_nodup acc x h)

/-- The related-variable accumulator of infoLoop stays duplicate-free. -/
theorem infoLoop_nodup (lineOf : Offset → Nat) (fd : Option FuncDecl) (line : Nat)
    (excl : List Expr) (l : List (Option Expr))
    (acc out : List String × List (List String) × List String)
    (h : infoLoop lineOf fd line excl l acc = some out) (hn : acc.2.2.Nodup) :
    out.2.2.Nodup := by
  induction l generalizing acc with
  | nil =>
      simp only [infoLoop, Option.some.injEq] at h
      subst h
      exact hn
  | cons a rest ih =>
      obtain ⟨a1, a2, a3⟩ := acc
      simp only [infoLoop] at h
      cases hfa : findAssignmentsF lineOf fd line a excl with
      | none => rw [hfa] at h; simp at h
      | some pr =>
          rw [hfa] at h
          simp only [Option.some_bind] at h
          exact ih _ h (foldl_insertStr_nodup pr.2 a3 hn)

/-- A hit on the entry that parseFileM just stored. -/
theorem cacheLookup_cons_self (cache : Cache) (fn : String) (pa : ParsedAst) :
    cacheLookup ((fn, pa) :: cache) fn = some pa := by
  simp [cacheLookup]

/-- After a successful parseFileM call, calling again with the returned
cache yields the same tree and leaves the cache unchanged. -/
theorem parseFileM_stable (fs : FileSys) (cache : Cache) (fn : String)
    (pa : ParsedAst) (h : (parseFileM fs cache fn).2 = .ok pa) :
    parseFileM fs (parseFileM fs cache fn).1 fn = ((parseFileM fs cache fn).1, .ok pa) := by
  cases hl : cacheLookup cache fn with
  | some pa2 =>
      have hp : parseFileM fs cache fn = (cache, .ok pa2) := by
        unfold parseFileM
        rw [hl]
      rw [hp] at h ⊢
      simp only [Except.ok.injEq] at h
      subst h
      exact hp
  | none =>
      cases hfs : fs fn with
      | absent =>
          have hp : parseFileM fs cache fn = (cache, .error .readErr) := by
            unfold parseFileM
            rw [hl, hfs]
          rw [hp] at h
          simp at h
      | bad pa2 =>
          have hp : parseFileM fs cache fn = ((fn, pa2) :: cache, .error .parseErr) := by
            unfold parseFileM
            rw [hl, hfs]
          rw [hp] at h
          simp at h
      | good pa2 =>
          have hp : parseFileM fs cache fn = ((fn, pa2) :: cache, .ok pa2) := by
            unfold parseFileM
            rw [hl, hfs]
          rw [hp] at h ⊢
          simp only [Except.ok.injEq] at h
          subst h
          have hp2 : parseFileM fs ((fn, pa2) :: cache) fn =
              ((fn, pa2) :: cache, .ok pa2) := by
            unfold parseFileM
            rw [cacheLookup_cons_self]
          exact hp2

/-- ParseArgs as a function of a successful parseFileM result. -/
theorem parseArgs_of_parseFileM (fs : FileSys) (c0 : Cache) (name fn : String)
    (line : Nat) (argIndex : List Int) (pa : ParsedAst)
    (hne : argIndex.isEmpty = false)
    (h : (parseFileM fs c0 fn).2 = .ok pa) :
    ParseArgs fs c0 name fn line argIndex = ((parseFileM fs c0 fn).1,
      .ok ⟨pa.lineOf,
        ((flattenFile pa.file).foldl
          (matchStep pa.lineOf (trimQualifier name) line argIndex)
          ⟨none, none, [], false⟩).funcDecl,
        ((flattenFile pa.file).foldl
          (matchStep pa.lineOf (trimQualifier name) line argIndex)
          ⟨none, none, [], false⟩).caller,
        ((flattenFile pa.file).foldl
          (matchStep pa.lineOf (trimQualifier name) line argIndex)
          ⟨none, none, [], false⟩).argExprs,
        baseName fn, line⟩) := by
  unfold ParseArgs
  rw [if_neg (by simp [hne])]
  rcases hp : parseFileM fs c0 fn with ⟨c2, res⟩
  rw [hp] at h
  cases res with
  | error e => simp at h
  | ok pa2 =>
      simp only [Except.ok.injEq] at h
      subst h
      rfl

/-- C3 amended: the first lookup of a filename reads and parses the file
and stores the result; later lookups return the cached value without
consulting the file system.  An unopenable file yields a read error on
every lookup (nothing is cached); a syntactically invalid file yields a
parse error on the first lookup only, because the partial parse result is
cached and later lookups return it with no error. -/
theorem c3_cache_semantics (fs : FileSys) (cache : Cache) (fn : String) :
    (∀ pa, cacheLookup cache fn = some pa →
        ∀ fs2, parseFileM fs2 cache fn = (cache, .ok pa)) ∧
    (cacheLookup cache fn = none → fs fn = .absent →
        parseFileM fs cache fn = (cache, .error .readErr)) ∧
    (∀ pa, cacheLookup cache fn = none → fs fn = .bad pa →
        parseFileM fs cache fn = ((fn, pa) :: cache, .error .parseErr) ∧
        parseFileM fs ((fn, pa) :: cache) fn = ((fn, pa) :: cache, .ok pa)) ∧
    (∀ pa, cacheLookup cache fn = none → fs fn = .good pa →
        parseFileM fs cache fn = ((fn, pa) :: cache, .ok pa) ∧
        parseFileM fs ((fn, pa) :: cache) fn = ((fn, pa) :: cache, .ok pa)) := by
  refine ⟨?_, ?_, ?_, ?_⟩
  · intro pa h fs2
    unfold parseFileM
    rw [h]
  · intro h1 h2
    unfold parseFileM
    rw [h1, h2]
  · intro pa h1 h2
    constructor
    · unfold parseFileM; rw [h1, h2]
    · unfold parseFileM; rw [cacheLookup_cons_self]
  · intro pa h1 h2
    constructor
    · unfold parseFileM; rw [h1, h2]
    · unfold parseFileM; rw [cacheLookup_cons_self]

/-- C3 witness: the amended statement applied to the invalid file bad.go
starting from a cold cache. -/
theorem c3_cache_semantics_witness :
    (cacheLookup [] "bad.go" = none ∧ fsBad "bad.go" = .bad paBad) ∧
    (parseFileM fsBad [] "bad.go" = ([("bad.go", paBad)], .error .parseErr) ∧
      parseFileM fsBad [("bad.go", paBad)] "bad.go" =
        ([("bad.go", paBad)], .ok paBad)) :=
  ⟨⟨rfl, rfl⟩, (c3_cache_semantics fsBad [] "bad.go").2.2.1 paBad rfl rfl⟩

/-- C4: whenever the backward scan terminates, the event listing of the
same traversal terminates too, the retained statement is exactly the last
match event in traversal (top-to-bottom source) order — not the first —
every match event lies on a line strictly less than the target line, and a
related expression with no qualifying prior statement contributes no
retained statement and raises no error. -/
theorem c4_backward_scan (lineOf : Offset → Nat) (line : Nat) (e : Expr)
    (excl : List Expr) (d : FuncDecl) (st : ScanState)
    (h : scanDecl lineOf line e excl d = some st) :
    ∃ l, scanEvents lineOf line e excl d = some l ∧
      st.lastStmt = lastEvent l ∧
      (∀ os ∈ l, ∀ s, os = some s → lineOf (stmtPos s) < line) ∧
      (l = [] → st.lastStmt = none) := by
  have h0 : scanRel lineOf line ⟨none, none, false⟩ ⟨none, [], false⟩ := by
    refine ⟨rfl, rfl, rfl, ?_, ?_⟩
    · intro os hos
      simp at hos
    · intro s hs
      simp at hs
  unfold scanDecl at h
  rcases scanFold_events_rel lineOf line e excl (flattenDecl excl d) _ _ h0 with
    ⟨hs, _⟩ | ⟨st2, est2, hs, he, hrel⟩
  · rw [h] at hs
    cases hs
  · rw [h] at hs
    have hst : st2 = st := by
      injection hs with hs
      exact hs.symm
  -- wait: hs : some st = some st2 after rw? fix below
    subst hst
    refine ⟨est2.events, ?_, hrel.2.2.1, hrel.2.2.2.1, ?_⟩
    · unfold scanEvents
      rw [he]
      rfl
    · intro hl
      rw [hrel.2.2.1, hl]
      rfl

/-- C4 witness: the scan of scenario A for v1 with the Track call excluded
terminates in the state retaining the v1 assignment, and the theorem then
lists its match events. -/
theorem c4_backward_scan_witness :
    scanDecl lines100 5 exprV1A [trackCall] declA = some stateA ∧
    (∃ l, scanEvents lines100 5 exprV1A [trackCall] declA = some l ∧
      stateA.lastStmt = lastEvent l ∧
      (∀ os ∈ l, ∀ s, os = some s → lines100 (stmtPos s) < 5) ∧
      (l = [] → stateA.lastStmt = none)) :=
  ⟨rfl, c4_backward_scan lines100 5 exprV1A [trackCall] declA stateA rfl⟩

/-- C6: a call expression whose position is in the exclusion set is pruned
whole by the backward scan — it can never contribute a binding — while in
the Track scenario the address-of arguments of a non-excluded call do count
as a binding: with the Track call excluded, resolving Check(v1 == 123)
retains the earlier statement v1 := 42, and without the exclusion the same
resolution retains the Track call statement itself. -/
theorem c6_excluded_call_never_binds :
    (∀ (lineOf : Offset → Nat) (line : Nat) (e : Expr) (excl : List Expr)
        (st : ScanState) (fnE : Expr) (args : List Expr) (rp : Offset),
        isExcluded excl (.call fnE args rp) = true →
        ∃ st2, (flattenExpr excl (.call fnE args rp)).foldlM
            (scanStep lineOf line e excl) st = some st2 ∧
          st2.lastStmt = st.lastStmt ∧ st2.stmt = st.stmt) ∧
    ((ParseArgs fsA [] "Check" "t.go" 5 [0]).2.toOption.bind fun f =>
        ParseInfo exclTrack f) = some infoTrackExcl ∧
    ((ParseArgs fsA [] "Check" "t.go" 5 [0]).2.toOption.bind fun f =>
        ParseInfo noExcl f) = some infoTrackIncl := by
  refine ⟨?_, rfl, rfl⟩
  intro lineOf line e excl st fnE args rp hex
  have hfl : flattenExpr excl (.call fnE args rp) = [.expr (.call fnE args rp)] := by
    unfold flattenExpr
    rw [if_pos hex]
  rw [hfl]
  by_cases hd : st.done
  · refine ⟨st, ?_, rfl, rfl⟩
    simp [List.foldlM_cons, List.foldlM_nil, scanStep, hd]
  · by_cases hc : line ≤ lineOf (nodePos (.expr (.call fnE args rp)))
    · refine ⟨{ st with done := true }, ?_, rfl, rfl⟩
      simp [List.foldlM_cons, List.foldlM_nil, scanStep, hd, hc]
    · refine ⟨st, ?_, rfl, rfl⟩
      simp [List.foldlM_cons, List.foldlM_nil, scanStep, hd, hc, nodeMatch, hex]

/-- C6 witness: the pruning statement applied to the concrete excluded
Track call of scenario A. -/
theorem c6_excluded_call_never_binds_witness :
    isExcluded [trackCall] (.call (.ident 404 "Track")
      [.unary 410 "&" (.ident 411 "v1"), .unary 415 "&" (.ident 416 "v2")] 418) = true ∧
    (∃ st2, (flattenExpr [trackCall] (.call (.ident 404 "Track")
        [.unary 410 "&" (.ident 411 "v1"), .unary 415 "&" (.ident 416 "v2")] 418)).foldlM
        (scanStep lines100 5 exprV1A [trackCall]) ⟨none, none, false⟩ = some st2 ∧
      st2.lastStmt = (⟨none, none, false⟩ : ScanState).lastStmt ∧
      st2.stmt = (⟨none, none, false⟩ : ScanState).stmt) :=
  ⟨rfl, c6_excluded_call_never_binds.1 lines100 5 exprV1A [trackCall]
    ⟨none, none, false⟩ (.ident 404 "Track")
    [.unary 410 "&" (.ident 411 "v1"), .unary 415 "&" (.ident 416 "v2")] 418 rfl⟩

/-- C9: resolving the same call site again with the cache produced by a
successful resolution returns the identical result and cache (so args,
assignments and relatedVars are identical), and the related-variable list
of every successful ParseInfo run is sorted in the byte-wise lexicographic
order of sort.Strings and duplicate-free. -/
theorem c9_idempotent_sorted (fs : FileSys) (cache : Cache) (name fn : String)
    (line : Nat) (argIndex : List Int) (p : Parser) :
    ((ParseArgs fs cache name fn line argIndex).2.isOk = true →
        ParseArgs fs (ParseArgs fs cache name fn line argIndex).1 name fn line argIndex =
          ParseArgs fs cache name fn line argIndex) ∧
    (∀ f i, (ParseArgs fs cache name fn line argIndex).2 = .ok f →
        ParseInfo p f = some i →
        List.Sorted strLe i.relatedVars ∧ i.relatedVars.Nodup) := by
  constructor
  · intro hok
    by_cases he : argIndex.isEmpty
    · unfold ParseArgs at hok
      rw [if_pos he] at hok
      simp [Except.isOk, Except.toBool] at hok
    · have hne : argIndex.isEmpty = false := by
        simpa using he
      obtain ⟨pa, hpa⟩ : ∃ pa, (parseFileM fs cache fn).2 = .ok pa := by
        unfold ParseArgs at hok
        rw [if_neg he] at hok
        rcases hp : parseFileM fs cache fn with ⟨c2, res⟩
        rw [hp] at hok
        cases res with
        | error er => simp [Except.isOk, Except.toBool] at hok
        | ok pa => exact ⟨pa, by simp [hp]⟩
      have h1 := parseArgs_of_parseFileM fs cache name fn line argIndex pa hne hpa
      have hstable := parseFileM_stable fs cache fn pa hpa
      have h2 := parseArgs_of_parseFileM fs (parseFileM fs cache fn).1 name fn line
        argIndex pa hne (by rw [hstable])
      rw [h1]
      simp only
      rw [h2, hstable]
  · intro f i hok hinfo
    obtain ⟨acc, hacc, hi⟩ := parseInfo_some p f i hinfo
    constructor
    · rw [hi]
      exact List.sorted_insertionSort strLe acc.2.2
    · rw [hi]
      have hperm := List.perm_insertionSort strLe acc.2.2
      exact hperm.nodup_iff.mpr
        (infoLoop_nodup f.lineOf f.func f.line p.excluded f.args _ _ hacc List.nodup_nil)

/-- C9 witness: the idempotence and sortedness statements applied to the
scenario-B resolution. -/
theorem c9_idempotent_sorted_witness :
    ((ParseArgs fsB [] "Check" "loop.go" 3 [0]).2.isOk = true ∧
      ParseArgs fsB (ParseArgs fsB [] "Check" "loop.go" 3 [0]).1
          "Check" "loop.go" 3 [0] =
        ParseArgs fsB [] "Check" "loop.go" 3 [0]) ∧
    ((ParseArgs fsB [] "Check" "loop.go" 3 [0]).2 = .ok funcB ∧
      ParseInfo noExcl funcB = some infoB ∧
      (List.Sorted strLe infoB.relatedVars ∧ infoB.relatedVars.Nodup)) :=
  ⟨⟨rfl, (c9_idempotent_sorted fsB [] "Check" "loop.go" 3 [0] noExcl).1 rfl⟩,
    ⟨rfl, rfl,
      (c9_idempotent_sorted fsB [] "Check" "loop.go" 3 [0] noExcl).2 funcB infoB rfl rfl⟩⟩

/-- One step of the concurrency model preserves its invariant. -/
theorem stepThread_inv (good : ParsedAst) (s : CState) (i : Nat)
    (h : cInv good s) : cInv good (stepThread good s i) := by
  obtain ⟨hc, ht⟩ := h
  cases hg : s.threads.get? i with
  | none =>
      simp only [stepThread, hg]
      exact ⟨hc, ht⟩
  | some t =>
      have htmem := ht _ (List.get?_mem hg)
      cases t with
      | start =>
          cases hcache : s.cache with
          | some pa =>
              have hpa : pa = good := by
                rcases hc with h0 | h0
                · rw [h0] at hcache
                  cases hcache
                · rw [h0] at hcache
                  injection hcache with h0
                  exact h0.symm
              simp only [stepThread, hg, hcache]
              refine ⟨?_, ?_⟩
              · exact Or.inr (by rw [hpa])
              intro t2 ht2
              rcases List.mem_or_eq_of_mem_set ht2 with hmem | heq
              · exact ht _ hmem
              · subst heq
                constructor
                · intro pa2 hp
                  cases hp
                · intro pa2 hp
                  injection hp with hp
                  rw [← hp]
                  exact hpa
          | none =>
              simp only [stepThread, hg, hcache]
              refine ⟨?_, ?_⟩
              · exact Or.inl rfl
              intro t2 ht2
              rcases List.mem_or_eq_of_mem_set ht2 with hmem | heq
              · exact ht _ hmem
              · subst heq
                constructor
                · intro pa2 hp
                  cases hp
                · intro pa2 hp
                  cases hp
      | willParse =>
          simp only [stepThread, hg]
          refine ⟨hc, ?_⟩
          intro t2 ht2
          rcases List.mem_or_eq_of_mem_set ht2 with hmem | heq
          · exact ht _ hmem
          · subst heq
            constructor
            · intro pa2 hp
              injection hp with hp
              exact hp.symm
            · intro pa2 hp
              cases hp
      | willInsert pa =>
          have hpa : pa = good := htmem.1 pa rfl
          simp only [stepThread, hg]
          refine ⟨Or.inr (by rw [hpa]), ?_⟩
          intro t2 ht2
          rcases List.mem_or_eq_of_mem_set ht2 with hmem | heq
          · exact ht _ hmem
          · subst heq
            constructor
            · intro pa2 hp
              cases hp
            · intro pa2 hp
              injection hp with hp
              rw [← hp]
              exact hpa
      | finished pa =>
          simp only [stepThread, hg]
          exact ⟨hc, ht⟩

/-- Every schedule preserves the concurrency invariant. -/
theorem runSched_inv (good : ParsedAst) (sched : List Nat) (s : CState)
    (h : cInv good s) : cInv good (runSched good s sched) := by
  induction sched generalizing s with
  | nil => exact h
  | cons i rest ih => exact ih _ (stepThread_inv good s i h)

/-- The initial state satisfies the concurrency invariant. -/
theorem initCState_inv (good : ParsedAst) (n : Nat) : cInv good (initCState n) := by
  refine ⟨Or.inl rfl, ?_⟩
  intro t ht
  have heq := List.eq_of_mem_replicate ht
  subst heq
  constructor
  · intro pa hp
    cases hp
  · intro pa hp
    cases hp

/-- C10 amended: the cache lookup and the cache insert are each atomic
(mutex-guarded), but the parse between them is not, so concurrent callers
may each parse the same file; nevertheless the cache is never corrupted:
under every schedule, every caller that finishes returns the correctly
parsed tree, and the cache holds nothing or the correctly parsed tree. -/
theorem c10_no_corruption (good : ParsedAst) (n : Nat) (sched : List Nat)
    (i : Nat) (pa : ParsedAst)
    (h : (runSched good (initCState n) sched).threads.get? i = some (.finished pa)) :
    pa = good ∧
    ((runSched good (initCState n) sched).cache = none ∨
      (runSched good (initCState n) sched).cache = some good) := by
  have hinv := runSched_inv good sched (initCState n) (initCState_inv good n)
  exact ⟨(hinv.2 _ (List.get?_mem h)).2 pa rfl, hinv.1⟩

/-- C10 witness: the no-corruption statement applied to a single thread
running to completion. -/
theorem c10_no_corruption_witness :
    (runSched paA (initCState 1) [0, 0, 0]).threads.get? 0 =
        some (.finished paA) ∧
    (paA = paA ∧
      ((runSched paA (initCState 1) [0, 0, 0]).cache = none ∨
        (runSched paA (initCState 1) [0, 0, 0]).cache = some paA)) :=
  ⟨rfl, c10_no_corruption paA 1 [0, 0, 0] 0 paA rfl⟩

end GoAssert
